import Mathlib

/-!
Shallow embedding of the DTW (dynamic time warping) engine of the
`dtw.ipynb` notebook: the cost-table builder `dtw_table(x, y)` and the
backtracker `dtw(x, y, table)`.

Modelling conventions:
* numpy float values (finite reals together with `numpy.inf`) are modelled
  by the two-constructor type `V K` — a finite value from a linearly
  ordered commutative ring `K`, or infinity.  Every concrete run below
  instantiates `K := ℤ`: all observations in the notebook's scenarios are
  integers and scalar Euclidean distances of integers are integers, so
  every float the program manipulates there is an exact integer;
* the 2-D numpy array is modelled as a total function `ℕ → ℕ → V K`
  updated in place by `upd` (cells outside the `(nx+1) × (ny+1)` grid keep
  the `numpy.zeros` fill and are never read by the algorithm);
* numpy's negative indexing (index `-1` addresses the last entry of an
  axis) is modelled by `npIndex`;
* the `while` loop of `dtw` is modelled with explicit fuel
  `len(x) + len(y) + 1`; the Python loop either terminates within that
  many iterations or dies reading the unbound `step` (both exits are
  reached below before fuel can run out on the inputs considered);
* a Python run that raises (the `UnboundLocalError` on `step` when no
  candidate is strictly below `inf`) is modelled as `none`.
-/

namespace DTW

/-- Cost values: finite numbers extended with `numpy.inf`. -/
inductive V (K : Type) where
  | fin (q : K)
  | inf
deriving DecidableEq

variable {K : Type} [LinearOrderedCommRing K]

/-- Float addition (`inf` absorbs; only `finite + finite` and sums with
`inf` on the left occur in the program). -/
def V.add : V K → V K → V K
  | V.fin a, V.fin b => V.fin (a + b)
  | _, _ => V.inf

instance : Add (V K) := ⟨V.add⟩

/-- Float strict comparison `a < b`. -/
def V.lt : V K → V K → Prop
  | V.fin a, V.fin b => a < b
  | V.fin _, V.inf => True
  | V.inf, _ => False

instance : LT (V K) := ⟨V.lt⟩

instance decLtV : ∀ a b : V K, Decidable (a < b)
  | V.fin a, V.fin b => if h : a < b then isTrue h else isFalse h
  | V.fin _, V.inf => isTrue trivial
  | V.inf, V.fin _ => isFalse id
  | V.inf, V.inf => isFalse id

/-- Float comparison `a <= b`. -/
def V.le : V K → V K → Prop
  | V.fin a, V.fin b => a ≤ b
  | _, V.inf => True
  | V.inf, V.fin _ => False

instance : LE (V K) := ⟨V.le⟩

instance decLeV : ∀ a b : V K, Decidable (a ≤ b)
  | V.fin a, V.fin b => if h : a ≤ b then isTrue h else isFalse h
  | V.fin _, V.inf => isTrue trivial
  | V.inf, V.fin _ => isFalse id
  | V.inf, V.inf => isTrue trivial

/-- Python's builtin `min` of two floats (it returns the first argument on
a tie; equal floats are equal values, so this is the value-level minimum). -/
def vmin : V K → V K → V K
  | V.fin a, V.fin b => if a ≤ b then V.fin a else V.fin b
  | V.fin a, V.inf => V.fin a
  | V.inf, w => w

/-- Python's builtin `max` of two floats (used only in claim statements). -/
def vmax : V K → V K → V K
  | V.fin a, V.fin b => if b ≤ a then V.fin a else V.fin b
  | _, V.inf => V.inf
  | V.inf, _ => V.inf

/-- Scalar `scipy.spatial.distance.euclidean`: the absolute difference
`|a - b|`, written with an explicit comparison so that it evaluates by
reduction. -/
def euclid (a b : K) : K := if a ≤ b then b - a else a - b

/-- In-place array write `table[a, b] = v`. -/
def upd (t : ℕ → ℕ → V K) (a b : ℕ) (v : V K) : ℕ → ℕ → V K :=
  fun a' b' => if a' = a ∧ b' = b then v else t a' b'

variable {α : Type} [Inhabited α]

/-- The array creation `table = numpy.zeros((nx+1, ny+1))`. -/
def zerosT : ℕ → ℕ → V K := fun _ _ => V.fin 0

/-- The statement `table[1:, 0] = numpy.inf` over an axis of length `nx + 1`. -/
def colInit (nx : ℕ) (t : ℕ → ℕ → V K) : ℕ → ℕ → V K :=
  (List.range nx).foldl (fun t i => upd t (i + 1) 0 V.inf) t

/-- The statement `table[0, 1:] = numpy.inf` over an axis of length `ny + 1`. -/
def rowInit (ny : ℕ) (t : ℕ → ℕ → V K) : ℕ → ℕ → V K :=
  (List.range ny).foldl (fun t j => upd t 0 (j + 1) V.inf) t

/-- Body of the inner loop of `dtw_table`: `d = distance(x[i-1], y[j-1]);
table[i, j] = d + min(table[i-1, j], table[i, j-1], table[i-1, j-1])`,
with the loop counters shifted so that `i j : ℕ` here are the Python
`i-1`, `j-1`. -/
def fillCell (d : α → α → K) (x y : List α) (i : ℕ) (t : ℕ → ℕ → V K) (j : ℕ) :
    ℕ → ℕ → V K :=
  upd t (i + 1) (j + 1)
    (V.fin (d (x.getD i default) (y.getD j default)) +
      vmin (t i (j + 1)) (vmin (t (i + 1) j) (t i j)))

/-- The inner loop `for j in range(1, ny+1): ...` for one value of the
outer counter. -/
def fillRow (d : α → α → K) (x y : List α) (ny : ℕ) (t : ℕ → ℕ → V K) (i : ℕ) :
    ℕ → ℕ → V K :=
  (List.range ny).foldl (fillCell d x y i) t

/-- The notebook's `dtw_table(x, y)` (the distance function is the
pluggable parameter `d`; the notebook hard-wires scalar `euclidean`). -/
def dtw_table (d : α → α → K) (x y : List α) : ℕ → ℕ → V K :=
  (List.range x.length).foldl (fillRow d x y y.length)
    (rowInit y.length (colInit x.length zerosT))

/-- numpy indexing into an axis of length `n + 1`: a negative index wraps
once from the end (only `-1` ever occurs in the runs considered). -/
def npIndex (n : ℕ) (i : ℤ) : ℕ := if 0 ≤ i then i.toNat else (n + 1 + i).toNat

/-- Array read `table[i, j]` with numpy index semantics on a table of
shape `(nx+1) × (ny+1)`. -/
def tblGet (t : ℕ → ℕ → V K) (nx ny : ℕ) (i j : ℤ) : V K :=
  t (npIndex nx i) (npIndex ny j)

/-- One iteration of the candidate scan of `dtw`: the pair
`(minval, step)` after the three `if table[...] < minval` statements,
starting from `minval = numpy.inf` and `step` unbound (`none`). -/
def dtw_step (t : ℕ → ℕ → V K) (nx ny : ℕ) (i j : ℤ) :
    V K × Option (ℤ × ℤ) :=
  let c1 := tblGet t nx ny (i - 1) j
  let c2 := tblGet t nx ny i (j - 1)
  let c3 := tblGet t nx ny (i - 1) (j - 1)
  let r1 : V K × Option (ℤ × ℤ) :=
    if c1 < V.inf then (c1, some (i - 1, j)) else (V.inf, none)
  let r2 : V K × Option (ℤ × ℤ) :=
    if c2 < r1.1 then (c2, some (i, j - 1)) else r1
  if c3 < r2.1 then (c3, some (i - 1, j - 1)) else r2

/-- The `while i > 0 or j > 0` loop of `dtw`, with explicit fuel.
`path.insert(0, step)` is the prepend; reading `step` when no branch of
the scan assigned it is the Python failure, modelled as `none`. -/
def dtw_loop (t : ℕ → ℕ → V K) (nx ny : ℕ) :
    ℕ → ℤ → ℤ → List (ℤ × ℤ) → Option (List (ℤ × ℤ))
  | 0, _, _, _ => none
  | fuel + 1, i, j, path =>
    if 0 < i ∨ 0 < j then
      match (dtw_step t nx ny i j).2 with
      | none => none
      | some s => dtw_loop t nx ny fuel s.1 s.2 (s :: path)
    else some path

/-- The notebook's `dtw(x, y, table)`: start at `(len(x), len(y))` with
`path = [(i, j)]` and walk back to `(0, 0)`. -/
def dtw (x y : List α) (t : ℕ → ℕ → V K) : Option (List (ℤ × ℤ)) :=
  let nx := x.length
  let ny := y.length
  dtw_loop t nx ny (nx + ny + 1) nx ny [((nx : ℤ), (ny : ℤ))]

/-! ### The closed-form recurrence satisfied by the filled table -/

/-- The dynamic-programming recurrence: the value the row-major in-place
fill of `dtw_table` leaves in cell `(i, j)` (proved below as
`dtw_table_eq_cell`). -/
def cell (d : α → α → K) (x y : List α) : ℕ → ℕ → V K
  | 0, 0 => V.fin 0
  | _ + 1, 0 => V.inf
  | 0, _ + 1 => V.inf
  | i + 1, j + 1 =>
      V.fin (d (x.getD i default) (y.getD j default)) +
        vmin (cell d x y i (j + 1)) (vmin (cell d x y (i + 1) j) (cell d x y i j))
termination_by i j => i + j

lemma upd_apply (t : ℕ → ℕ → V K) (a b : ℕ) (v : V K) (a' b' : ℕ) :
    upd t a b v a' b' = if a' = a ∧ b' = b then v else t a' b' := rfl

lemma colInit_apply (nx : ℕ) (t : ℕ → ℕ → V K) (a b : ℕ) :
    colInit nx t a b = if 1 ≤ a ∧ a ≤ nx ∧ b = 0 then V.inf else t a b := by
  unfold colInit
  induction nx with
  | zero =>
    simp only [List.range_zero, List.foldl_nil]
    split_ifs with h
    · omega
    · rfl
  | succ n ih =>
    rw [List.range_succ, List.foldl_append, List.foldl_cons, List.foldl_nil]
    rw [upd_apply, ih]
    split_ifs <;> first | rfl | omega

lemma rowInit_apply (ny : ℕ) (t : ℕ → ℕ → V K) (a b : ℕ) :
    rowInit ny t a b = if a = 0 ∧ 1 ≤ b ∧ b ≤ ny then V.inf else t a b := by
  unfold rowInit
  induction ny with
  | zero =>
    simp only [List.range_zero, List.foldl_nil]
    split_ifs with h
    · omega
    · rfl
  | succ n ih =>
    rw [List.range_succ, List.foldl_append, List.foldl_cons, List.foldl_nil]
    rw [upd_apply, ih]
    split_ifs <;> first | rfl | omega

lemma init_apply (nx ny : ℕ) (a b : ℕ) :
    rowInit ny (colInit nx (zerosT (K := K))) a b =
      if 1 ≤ a ∧ a ≤ nx ∧ b = 0 then V.inf
      else if a = 0 ∧ 1 ≤ b ∧ b ≤ ny then V.inf
      else V.fin 0 := by
  rw [rowInit_apply, colInit_apply]
  unfold zerosT
  split_ifs <;> first | rfl | omega

variable (d : α → α → K) (x y : List α)

lemma cell_zero_zero : cell d x y 0 0 = V.fin 0 := by rw [cell]

lemma cell_succ_zero (i : ℕ) : cell d x y (i + 1) 0 = V.inf := by rw [cell]

lemma cell_zero_succ (j : ℕ) : cell d x y 0 (j + 1) = V.inf := by rw [cell]

lemma cell_succ_succ (i j : ℕ) :
    cell d x y (i + 1) (j + 1) =
      V.fin (d (x.getD i default) (y.getD j default)) +
        vmin (cell d x y i (j + 1))
          (vmin (cell d x y (i + 1) j) (cell d x y i j)) := by rw [cell]

/-- Invariant of the inner `for j` loop of `dtw_table`: after the first
`c` iterations of filling row `i + 1`, the cells `(i+1, 1..c)` hold their
recurrence values and no other cell changed. -/
lemma fillRow_inv (ny : ℕ) (i : ℕ) (t : ℕ → ℕ → V K)
    (hrow : ∀ b, b ≤ ny → t i b = cell d x y i b)
    (hcol : t (i + 1) 0 = cell d x y (i + 1) 0) :
    ∀ c, c ≤ ny →
      (∀ a b, a ≠ i + 1 → (List.range c).foldl (fillCell d x y i) t a b = t a b) ∧
      ((List.range c).foldl (fillCell d x y i) t (i + 1) 0 = t (i + 1) 0) ∧
      (∀ b, 1 ≤ b → b ≤ c →
        (List.range c).foldl (fillCell d x y i) t (i + 1) b = cell d x y (i + 1) b) ∧
      (∀ b, c < b →
        (List.range c).foldl (fillCell d x y i) t (i + 1) b = t (i + 1) b) := by
  intro c
  induction c with
  | zero =>
    intro _
    exact ⟨fun a b _ => rfl, rfl,
      fun b hb hb' => absurd (hb.trans hb') (Nat.not_succ_le_zero 0), fun b _ => rfl⟩
  | succ c ih =>
    intro hc
    obtain ⟨ih1, ih2, ih3, ih4⟩ := ih (by omega)
    rw [List.range_succ, List.foldl_append, List.foldl_cons, List.foldl_nil]
    set F := (List.range c).foldl (fillCell d x y i) t with hF
    have hup : F i (c + 1) = cell d x y i (c + 1) := by
      rw [ih1 i (c + 1) (by omega)]; exact hrow (c + 1) hc
    have hleft : F (i + 1) c = cell d x y (i + 1) c := by
      rcases c with _ | c'
      · rw [ih2]; exact hcol
      · exact ih3 (c' + 1) (by omega) (by omega)
    have hdiag : F i c = cell d x y i c := by
      rw [ih1 i c (by omega)]; exact hrow c (by omega)
    have hval : fillCell d x y i F c = upd F (i + 1) (c + 1) (cell d x y (i + 1) (c + 1)) := by
      unfold fillCell
      rw [hup, hleft, hdiag, cell_succ_succ]
    rw [hval]
    refine ⟨?_, ?_, ?_, ?_⟩
    · intro a b ha
      rw [upd_apply]
      rw [if_neg (by omega)]
      exact ih1 a b ha
    · rw [upd_apply, if_neg (by omega)]
      exact ih2
    · intro b hb hb'
      rw [upd_apply]
      rcases Nat.eq_or_lt_of_le hb' with hbe | hbl
      · subst hbe
        rw [if_pos ⟨rfl, rfl⟩]
      · rw [if_neg (by omega)]
        exact ih3 b hb (by omega)
    · intro b hb
      rw [upd_apply, if_neg (by omega)]
      exact ih4 b (by omega)

/-- Invariant of the outer `for i` loop of `dtw_table`: after the first
`r` rows are filled, rows `0..r` hold their recurrence values (up to
column `ny`) and later rows still hold their initialization. -/
lemma fillAll_inv (nx ny : ℕ) :
    ∀ r, r ≤ nx →
      (∀ a, a ≤ r → ∀ b, b ≤ ny →
        (List.range r).foldl (fillRow d x y ny)
          (rowInit ny (colInit nx zerosT)) a b = cell d x y a b) ∧
      (∀ a b, r < a →
        (List.range r).foldl (fillRow d x y ny)
          (rowInit ny (colInit nx zerosT)) a b =
        rowInit ny (colInit nx (zerosT (K := K))) a b) := by
  intro r
  induction r with
  | zero =>
    intro _
    constructor
    · intro a ha b hb
      interval_cases a
      show rowInit ny (colInit nx zerosT) 0 b = _
      rcases b with _ | b'
      · rw [init_apply, cell_zero_zero]
        split_ifs <;> first | rfl | omega
      · rw [init_apply, cell_zero_succ]
        split_ifs <;> first | rfl | omega
    · intro a b _
      rfl
  | succ r ih =>
    intro hr
    obtain ⟨ihA, ihB⟩ := ih (by omega)
    rw [List.range_succ, List.foldl_append, List.foldl_cons, List.foldl_nil]
    set G := (List.range r).foldl (fillRow d x y ny) (rowInit ny (colInit nx zerosT)) with hG
    have hrow : ∀ b, b ≤ ny → G r b = cell d x y r b := fun b hb => ihA r le_rfl b hb
    have hcol : G (r + 1) 0 = cell d x y (r + 1) 0 := by
      rw [ihB (r + 1) 0 (by omega), init_apply, cell_succ_zero]
      split_ifs <;> first | rfl | omega
    obtain ⟨s1, s2, s3, s4⟩ := fillRow_inv d x y ny r G hrow hcol ny le_rfl
    constructor
    · intro a ha b hb
      show (List.range ny).foldl (fillCell d x y r) G a b = _
      rcases Nat.lt_or_ge a (r + 1) with hal | hae
      · rw [s1 a b (by omega)]
        exact ihA a (by omega) b hb
      · have hae' : a = r + 1 := by omega
        subst hae'
        rcases b with _ | b'
        · rw [s2]; exact hcol
        · exact s3 (b' + 1) (by omega) hb
    · intro a b hab
      show (List.range ny).foldl (fillCell d x y r) G a b = _
      rw [s1 a b (by omega)]
      exact ihB a b (by omega)

/-- The in-place row-major fill of `dtw_table` computes exactly the
dynamic-programming recurrence `cell` on the whole grid. -/
lemma dtw_table_eq_cell (a b : ℕ) (ha : a ≤ x.length) (hb : b ≤ y.length) :
    dtw_table d x y a b = cell d x y a b :=
  (fillAll_inv d x y x.length y.length x.length le_rfl).1 a ha b hb

/-! ### Order facts about `V` and finiteness of interior cells -/

lemma add_def (v w : V K) : v + w = V.add v w := rfl

lemma lt_def (v w : V K) : (v < w) = V.lt v w := rfl

lemma le_def (v w : V K) : (v ≤ w) = V.le v w := rfl

lemma lt_inf_iff (v : V K) : v < V.inf ↔ ∃ q, v = V.fin q := by
  cases v with
  | fin q => exact ⟨fun _ => ⟨q, rfl⟩, fun _ => trivial⟩
  | inf => exact ⟨fun h => h.elim, fun ⟨q, hq⟩ => V.noConfusion hq⟩

lemma fin_lt_inf (q : K) : V.fin q < V.inf := trivial

lemma not_inf_lt (v : V K) : ¬ V.inf < v := by cases v <;> exact id

lemma vmin_inf_left (v : V K) : vmin V.inf v = v := rfl

lemma vmin_inf_right (v : V K) : vmin v V.inf = v := by cases v <;> rfl

lemma vmin_lt_inf (v w : V K) : vmin v w < V.inf ↔ v < V.inf ∨ w < V.inf := by
  cases v with
  | fin a =>
    cases w with
    | fin b =>
      constructor
      · intro _; exact Or.inl trivial
      · intro _
        show (if a ≤ b then V.fin a else V.fin b) < V.inf
        split_ifs <;> trivial
    | inf => simp [vmin, lt_def, V.lt]
  | inf => simp [vmin, lt_def, V.lt]

lemma add_fin_lt_inf (q : K) (v : V K) : V.fin q + v < V.inf ↔ v < V.inf := by
  cases v with
  | fin a => simp [add_def, V.add, lt_def, V.lt]
  | inf => simp [add_def, V.add, lt_def, V.lt]

/-- Every interior cell of the recurrence is finite. -/
lemma cell_lt_inf : ∀ i j : ℕ, cell d x y (i + 1) (j + 1) < V.inf := by
  intro i
  induction i with
  | zero =>
    intro j
    induction j with
    | zero =>
      rw [cell_succ_succ, cell_zero_succ, cell_succ_zero, cell_zero_zero,
        vmin_inf_left, vmin_inf_left, add_fin_lt_inf]
      exact fin_lt_inf 0
    | succ j' ihj =>
      rw [cell_succ_succ, cell_zero_succ, cell_zero_succ, vmin_inf_left,
        vmin_inf_right, add_fin_lt_inf]
      exact ihj
  | succ i' ihi =>
    intro j
    rw [cell_succ_succ, add_fin_lt_inf, vmin_lt_inf]
    exact Or.inl (ihi j)

/-! ### The backtracking step -/

lemma inf_lt_iff_false (v : V K) : V.inf < v ↔ False :=
  ⟨not_inf_lt v, False.elim⟩

lemma fin_lt_inf_iff (q : K) : V.fin q < V.inf ↔ True :=
  ⟨fun _ => trivial, fun _ => trivial⟩

lemma fin_lt_fin (q r : K) : V.fin q < V.fin r ↔ q < r := Iff.rfl

lemma vmin_fin (q r : K) : vmin (V.fin q) (V.fin r) = if q ≤ r then V.fin q else V.fin r := rfl

lemma npIndex_ofNat (n a : ℕ) : npIndex n (a : ℤ) = a := by
  simp [npIndex]

lemma tblGet_nat (t : ℕ → ℕ → V K) (nx ny a b : ℕ) :
    tblGet t nx ny (a : ℤ) (b : ℤ) = t a b := by
  simp [tblGet, npIndex_ofNat]

/-- Behaviour of one candidate scan of `dtw` at a state `(a, b)` with
`1 ≤ a ≤ nx`, `1 ≤ b ≤ ny`, over a table that agrees with the recurrence
on the grid: the scan always assigns `step`, the chosen predecessor is one
of the three moves, it stays on the grid, it is `(0,0)` exactly when the
state is `(1,1)` and otherwise stays interior, and the cell value at the
state is the step distance plus the cell value at the predecessor. -/
lemma dtw_step_spec (t : ℕ → ℕ → V K)
    (ht : ∀ a, a ≤ x.length → ∀ b, b ≤ y.length → t a b = cell d x y a b)
    (a b : ℕ) (ha1 : 1 ≤ a) (ha2 : a ≤ x.length) (hb1 : 1 ≤ b) (hb2 : b ≤ y.length) :
    ∃ pa pb : ℕ, (dtw_step t x.length y.length (a : ℤ) (b : ℤ)).2 = some ((pa : ℤ), (pb : ℤ)) ∧
      pa ≤ x.length ∧ pb ≤ y.length ∧
      ((pa = a - 1 ∧ pb = b) ∨ (pa = a ∧ pb = b - 1) ∨ (pa = a - 1 ∧ pb = b - 1)) ∧
      ((1 ≤ pa ∧ 1 ≤ pb) ∨ (pa = 0 ∧ pb = 0 ∧ a = 1 ∧ b = 1)) ∧
      cell d x y a b =
        V.fin (d (x.getD (a - 1) default) (y.getD (b - 1) default)) + cell d x y pa pb := by
  have e1 : ((a : ℤ) - 1) = ((a - 1 : ℕ) : ℤ) := by omega
  have e2 : ((b : ℤ) - 1) = ((b - 1 : ℕ) : ℤ) := by omega
  have hc1 : t (a - 1) b = cell d x y (a - 1) b := ht _ (by omega) _ hb2
  have hc2 : t a (b - 1) = cell d x y a (b - 1) := ht _ ha2 _ (by omega)
  have hc3 : t (a - 1) (b - 1) = cell d x y (a - 1) (b - 1) := ht _ (by omega) _ (by omega)
  simp only [dtw_step, e1, e2, tblGet_nat, hc1, hc2, hc3]
  rcases a with _ | a0
  · omega
  rcases b with _ | b0
  · omega
  simp only [Nat.add_sub_cancel]
  rcases a0 with _ | a1 <;> rcases b0 with _ | b1
  · -- state (1, 1): the only finite candidate is the diagonal (0, 0)
    refine ⟨0, 0, ?_, by omega, by omega, by omega, by omega, ?_⟩
    · simp [cell_zero_succ, cell_succ_zero, cell_zero_zero, inf_lt_iff_false, fin_lt_inf_iff]
    · rw [cell_succ_succ, cell_zero_succ, cell_succ_zero, cell_zero_zero,
        vmin_inf_left, vmin_inf_left]
  · -- state (1, b) with b ≥ 2: the only finite candidate is the left cell
    refine ⟨1, b1 + 1, ?_, by omega, by omega, by omega, by omega, ?_⟩
    · obtain ⟨q2, hq2⟩ := (lt_inf_iff _).1 (cell_lt_inf d x y 0 b1)
      simp [cell_zero_succ, hq2, inf_lt_iff_false, fin_lt_inf_iff]
    · rw [cell_succ_succ, cell_zero_succ, cell_zero_succ, vmin_inf_left, vmin_inf_right]
  · -- state (a, 1) with a ≥ 2: the only finite candidate is the upper cell
    refine ⟨a1 + 1, 1, ?_, by omega, by omega, by omega, by omega, ?_⟩
    · obtain ⟨q1, hq1⟩ := (lt_inf_iff _).1 (cell_lt_inf d x y a1 0)
      simp [cell_succ_zero, hq1, inf_lt_iff_false, fin_lt_inf_iff]
    · rw [cell_succ_succ, cell_succ_zero, cell_succ_zero, vmin_inf_right, vmin_inf_right]
  · -- interior state (a, b) with a, b ≥ 2: all three candidates are finite
    obtain ⟨q1, hq1⟩ := (lt_inf_iff _).1 (cell_lt_inf d x y a1 (b1 + 1))
    obtain ⟨q2, hq2⟩ := (lt_inf_iff _).1 (cell_lt_inf d x y (a1 + 1) b1)
    obtain ⟨q3, hq3⟩ := (lt_inf_iff _).1 (cell_lt_inf d x y a1 b1)
    rw [hq1, hq2, hq3]
    have hcell : cell d x y (a1 + 1 + 1) (b1 + 1 + 1) =
        V.fin (d (x.getD (a1 + 1) default) (y.getD (b1 + 1) default)) +
          vmin (V.fin q1) (vmin (V.fin q2) (V.fin q3)) := by
      rw [cell_succ_succ, hq1, hq2, hq3]
    by_cases h12 : q2 < q1
    · by_cases h23 : q3 < q2
      · refine ⟨a1 + 1, b1 + 1, ?_, by omega, by omega, by omega, by omega, ?_⟩
        · simp [fin_lt_inf_iff, fin_lt_fin, h12, h23]
        · rw [hcell, hq3, vmin_fin, if_neg (not_le.mpr h23), vmin_fin,
            if_neg (not_le.mpr (h23.trans h12))]
      · refine ⟨a1 + 1 + 1, b1 + 1, ?_, by omega, by omega, by omega, by omega, ?_⟩
        · simp [fin_lt_inf_iff, fin_lt_fin, h12, h23]
        · rw [hcell, hq2, vmin_fin, if_pos (not_lt.mp h23), vmin_fin,
            if_neg (not_le.mpr h12)]
    · by_cases h31 : q3 < q1
      · refine ⟨a1 + 1, b1 + 1, ?_, by omega, by omega, by omega, by omega, ?_⟩
        · simp [fin_lt_inf_iff, fin_lt_fin, h12, h31]
        · rw [hcell, hq3, vmin_fin,
            if_neg (not_le.mpr (lt_of_lt_of_le h31 (not_lt.mp h12))), vmin_fin,
            if_neg (not_le.mpr h31)]
      · refine ⟨a1 + 1, b1 + 1 + 1, ?_, by omega, by omega, by omega, by omega, ?_⟩
        · simp [fin_lt_inf_iff, fin_lt_fin, h12, h31]
        · rw [hcell, hq1]
          rcases le_or_lt q2 q3 with h23' | h23'
          · rw [vmin_fin, if_pos h23', vmin_fin, if_pos (not_lt.mp h12)]
          · rw [vmin_fin, if_neg (not_le.mpr h23'), vmin_fin, if_pos (not_lt.mp h31)]

/-! ### The backtracking loop -/

/-- The three permitted forward moves of an alignment path. -/
def validStep (p q : ℤ × ℤ) : Prop :=
  q = (p.1 + 1, p.2) ∨ q = (p.1, p.2 + 1) ∨ q = (p.1 + 1, p.2 + 1)

instance decValidStep : ∀ p q : ℤ × ℤ, Decidable (validStep p q) := fun p q => by
  unfold validStep
  infer_instance

/-- The distance charged at a path element `(i, j)`:
`distance(x[i-1], y[j-1])` in the notebook's index convention. -/
def stepCost (d : α → α → K) (x y : List α) (p : ℤ × ℤ) : K :=
  d (x.getD (p.1 - 1).toNat default) (y.getD (p.2 - 1).toNat default)

/-- Sum of `stepCost` over the path elements with both coordinates
positive. -/
def pathCost (d : α → α → K) (x y : List α) : List (ℤ × ℤ) → K
  | [] => 0
  | p :: rest => (if 0 < p.1 ∧ 0 < p.2 then stepCost d x y p else 0) + pathCost d x y rest

lemma fin_add_fin (q r : K) : V.fin q + V.fin r = V.fin (q + r) := rfl

lemma pathCost_append (P Q : List (ℤ × ℤ)) :
    pathCost d x y (P ++ Q) = pathCost d x y P + pathCost d x y Q := by
  induction P with
  | nil => rw [List.nil_append]; show _ = 0 + _; rw [zero_add]
  | cons p P ih =>
    rw [List.cons_append]
    show _ + pathCost d x y (P ++ Q) = _
    rw [ih]
    show _ = _ + pathCost d x y P + pathCost d x y Q
    ring

lemma dtw_loop_done (t : ℕ → ℕ → V K) (nx ny fuel : ℕ) (P : List (ℤ × ℤ))
    (h : 1 ≤ fuel) : dtw_loop t nx ny fuel 0 0 P = some P := by
  rcases fuel with _ | fuel
  · omega
  · show dtw_loop t nx ny (fuel + 1) 0 0 P = some P
    rw [dtw_loop]
    rw [if_neg (by omega)]

/-- Main invariant of the `while` loop of `dtw`, for a table that agrees
with the recurrence on the grid and a state `(a, b)` on the interior of
the grid: the loop succeeds and prepends a segment `L = (0,0) :: R` whose
interior elements stay on the grid, whose element after `(0,0)` is
`(1,1)`, which is chained by the three permitted moves, whose summed step
distances equal the cell value at `(a, b)`, and whose length is between
`max a b + 1` and `a + b + 1`. -/
lemma dtw_loop_spec (t : ℕ → ℕ → V K)
    (ht : ∀ a, a ≤ x.length → ∀ b, b ≤ y.length → t a b = cell d x y a b) :
    ∀ fuel a b, 1 ≤ a → a ≤ x.length → 1 ≤ b → b ≤ y.length → a + b < fuel →
    ∀ acc : List (ℤ × ℤ),
    ∃ L R : List (ℤ × ℤ),
      dtw_loop t x.length y.length fuel (a : ℤ) (b : ℤ) (((a : ℤ), (b : ℤ)) :: acc) =
        some ((L ++ [((a : ℤ), (b : ℤ))]) ++ acc) ∧
      L = ((0 : ℤ), (0 : ℤ)) :: R ∧
      (∀ p ∈ R, ∃ a' b' : ℕ, p = ((a' : ℤ), (b' : ℤ)) ∧
        1 ≤ a' ∧ a' ≤ x.length ∧ 1 ≤ b' ∧ b' ≤ y.length) ∧
      (R ++ [((a : ℤ), (b : ℤ))]).head? = some ((1 : ℤ), (1 : ℤ)) ∧
      List.Chain' validStep (L ++ [((a : ℤ), (b : ℤ))]) ∧
      V.fin (pathCost d x y (L ++ [((a : ℤ), (b : ℤ))])) = cell d x y a b ∧
      max a b + 1 ≤ (L ++ [((a : ℤ), (b : ℤ))]).length ∧
      (L ++ [((a : ℤ), (b : ℤ))]).length ≤ a + b + 1 := by
  intro fuel
  induction fuel with
  | zero => intro a b _ _ _ _ hf; omega
  | succ fuel ih =>
    intro a b ha1 ha2 hb1 hb2 hfuel acc
    obtain ⟨pa, pb, hstep, hpa, hpb, hmove, hpos, hcelleq⟩ :=
      dtw_step_spec d x y t ht a b ha1 ha2 hb1 hb2
    have hrun : dtw_loop t x.length y.length (fuel + 1) (a : ℤ) (b : ℤ)
        (((a : ℤ), (b : ℤ)) :: acc) =
        dtw_loop t x.length y.length fuel (pa : ℤ) (pb : ℤ)
          (((pa : ℤ), (pb : ℤ)) :: ((a : ℤ), (b : ℤ)) :: acc) := by
      rw [dtw_loop, if_pos (Or.inl (by exact_mod_cast ha1)), hstep]
    have hsingle : pathCost d x y [((a : ℤ), (b : ℤ))] =
        d (x.getD (a - 1) default) (y.getD (b - 1) default) := by
      show (if 0 < (a : ℤ) ∧ 0 < (b : ℤ) then stepCost d x y ((a : ℤ), (b : ℤ)) else 0) + 0 = _
      rw [if_pos ⟨by exact_mod_cast ha1, by exact_mod_cast hb1⟩, add_zero]
      show d (x.getD ((a : ℤ) - 1).toNat default) (y.getD ((b : ℤ) - 1).toNat default) = _
      rw [show ((a : ℤ) - 1).toNat = a - 1 by omega, show ((b : ℤ) - 1).toNat = b - 1 by omega]
    rcases hpos with ⟨hpa1, hpb1⟩ | ⟨hpa0, hpb0, ha1', hb1'⟩
    · -- the predecessor is interior: recurse
      obtain ⟨L', R', hloop, hLR, hmem, hhead, hchain, hcost, hlen1, hlen2⟩ :=
        ih pa pb hpa1 hpa hpb1 hpb (by omega) (((a : ℤ), (b : ℤ)) :: acc)
      have hvs : validStep ((pa : ℤ), (pb : ℤ)) ((a : ℤ), (b : ℤ)) := by
        simp only [validStep, Prod.mk.injEq]
        omega
      refine ⟨L' ++ [((pa : ℤ), (pb : ℤ))], R' ++ [((pa : ℤ), (pb : ℤ))],
        ?_, ?_, ?_, ?_, ?_, ?_, ?_, ?_⟩
      · rw [hrun, hloop]
        simp only [List.append_assoc, List.singleton_append, List.cons_append, List.nil_append]
      · rw [hLR]
        rfl
      · intro p hp
        rcases List.mem_append.1 hp with hp' | hp'
        · exact hmem p hp'
        · rw [List.mem_singleton.1 hp']
          exact ⟨pa, pb, rfl, hpa1, hpa, hpb1, hpb⟩
      · rcases R' with _ | ⟨r0, R''⟩ <;> simpa using hhead
      · rw [List.chain'_append]
        refine ⟨hchain, List.chain'_singleton _, ?_⟩
        intro u hu v hv
        rw [List.getLast?_concat] at hu
        simp only [List.head?_cons, Option.mem_def, Option.some.injEq] at hu hv
        rw [← hu, ← hv]
        exact hvs
      · rw [pathCost_append, hsingle, hcelleq, ← hcost, fin_add_fin]
        congr 1
        ring
      · simp only [List.length_append, List.length_singleton] at hlen1 ⊢
        omega
      · simp only [List.length_append, List.length_singleton] at hlen2 ⊢
        omega
    · -- the predecessor is (0, 0): the next iteration exits the loop
      subst hpa0 hpb0 ha1' hb1'
      have hdone : dtw_loop t x.length y.length fuel ((0 : ℕ) : ℤ) ((0 : ℕ) : ℤ)
          ((((0 : ℕ) : ℤ), ((0 : ℕ) : ℤ)) :: (((1 : ℕ) : ℤ), ((1 : ℕ) : ℤ)) :: acc) =
          some ((((0 : ℕ) : ℤ), ((0 : ℕ) : ℤ)) :: (((1 : ℕ) : ℤ), ((1 : ℕ) : ℤ)) :: acc) := by
        rw [Nat.cast_zero]
        exact dtw_loop_done t x.length y.length fuel _ (by omega)
      refine ⟨[((0 : ℤ), (0 : ℤ))], [], ?_, rfl, ?_, ?_, ?_, ?_, ?_, ?_⟩
      · rw [hrun]
        rw [Nat.cast_zero] at hdone ⊢
        rw [hdone]
        rfl
      · intro p hp
        exact absurd hp (List.not_mem_nil p)
      · rfl
      · rw [show ([((0 : ℤ), (0 : ℤ))] ++ [(((1 : ℕ) : ℤ), ((1 : ℕ) : ℤ))]) =
          [((0 : ℤ), (0 : ℤ)), (((1 : ℕ) : ℤ), ((1 : ℕ) : ℤ))] from rfl]
        rw [List.chain'_pair]
        simp only [validStep, Prod.mk.injEq, Nat.cast_one]
        norm_num
      · rw [hcelleq, cell_zero_zero, fin_add_fin]
        show V.fin ((if 0 < (0 : ℤ) ∧ 0 < (0 : ℤ) then _ else 0) +
          ((if 0 < ((1 : ℕ) : ℤ) ∧ 0 < ((1 : ℕ) : ℤ)
            then stepCost d x y (((1 : ℕ) : ℤ), ((1 : ℕ) : ℤ)) else 0) + 0)) = _
        rw [if_neg (by norm_num), if_pos (by norm_num)]
        show V.fin (0 + (d (x.getD (((1 : ℕ) : ℤ) - 1).toNat default)
          (y.getD (((1 : ℕ) : ℤ) - 1).toNat default) + 0)) = _
        rw [show (((1 : ℕ) : ℤ) - 1).toNat = 0 by omega]
        congr 1
        ring_nf
      · simp
      · simp

/-- Summary of a full backtracking run `dtw(x, y, dtw_table(x, y))` for
non-empty inputs: it succeeds, the path starts at `(0,0)`, ends at
`(Nx, Ny)`, its second element is `(1,1)`, all elements after the first
stay on the interior of the grid, consecutive elements are chained by the
three permitted moves, the summed step distances equal the final cost
cell, and the length is between `max Nx Ny + 1` and `Nx + Ny + 1`. -/
lemma dtw_master (hx : x ≠ []) (hy : y ≠ []) :
    ∃ P : List (ℤ × ℤ),
      dtw x y (dtw_table d x y) = some P ∧
      P.head? = some ((0 : ℤ), (0 : ℤ)) ∧
      P.getLast? = some ((x.length : ℤ), (y.length : ℤ)) ∧
      P.tail.head? = some ((1 : ℤ), (1 : ℤ)) ∧
      (∀ p ∈ P.tail, 1 ≤ p.1 ∧ p.1 ≤ (x.length : ℤ) ∧ 1 ≤ p.2 ∧ p.2 ≤ (y.length : ℤ)) ∧
      List.Chain' validStep P ∧
      V.fin (pathCost d x y P) = dtw_table d x y x.length y.length ∧
      max x.length y.length + 1 ≤ P.length ∧ P.length ≤ x.length + y.length + 1 := by
  have hnx : 1 ≤ x.length := List.length_pos.mpr hx
  have hny : 1 ≤ y.length := List.length_pos.mpr hy
  obtain ⟨L, R, hloop, hLR, hmem, hhead, hchain, hcost, hlen1, hlen2⟩ :=
    dtw_loop_spec d x y (dtw_table d x y) (fun a ha b hb => dtw_table_eq_cell d x y a b ha hb)
      (x.length + y.length + 1) x.length y.length hnx le_rfl hny le_rfl (by omega) []
  rw [List.append_nil] at hloop
  refine ⟨L ++ [((x.length : ℤ), (y.length : ℤ))], ?_, ?_, ?_, ?_, ?_, hchain, ?_, hlen1, hlen2⟩
  · exact hloop
  · rw [hLR]
    rfl
  · exact List.getLast?_concat _
  · rw [hLR, List.cons_append, List.tail_cons]
    exact hhead
  · rw [hLR, List.cons_append, List.tail_cons]
    intro p hp
    rcases List.mem_append.1 hp with hp' | hp'
    · obtain ⟨a', b', rfl, h1, h2, h3, h4⟩ := hmem p hp'
      refine ⟨?_, ?_, ?_, ?_⟩ <;> simp <;> omega
    · rw [List.mem_singleton.1 hp']
      refine ⟨?_, ?_, ?_, ?_⟩ <;> simp <;> omega
  · rw [hcost]
    exact (dtw_table_eq_cell d x y x.length y.length le_rfl le_rfl).symm

/-! ### Additional helper lemmas -/

lemma euclid_eq_abs (a b : K) : euclid a b = |a - b| := by
  unfold euclid
  split_ifs with h
  · rw [abs_sub_comm, abs_of_nonneg (by linarith)]
  · rw [abs_of_pos (by linarith)]

lemma euclid_nonneg (a b : K) : 0 ≤ euclid a b := by
  unfold euclid
  split_ifs with h
  · linarith
  · linarith

lemma le_fin_add (q : K) (hq : 0 ≤ q) (v : V K) : v ≤ V.fin q + v := by
  cases v with
  | fin a => show a ≤ q + a; linarith
  | inf => trivial

lemma vmin_comm (v w : V K) : vmin v w = vmin w v := by
  cases v with
  | inf => cases w <;> rfl
  | fin a =>
    cases w with
    | inf => rfl
    | fin b =>
      rw [vmin_fin, vmin_fin]
      split_ifs with h1 h2 <;> first | rfl | (congr 1; linarith) | (exfalso; linarith)

lemma vmin_assoc (u v w : V K) : vmin (vmin u v) w = vmin u (vmin v w) := by
  cases u with
  | inf => rfl
  | fin a =>
    cases v with
    | inf => rfl
    | fin b =>
      cases w with
      | inf => simp only [vmin_inf_right]
      | fin c =>
        simp only [vmin_fin]
        split_ifs <;> simp only [vmin_fin] <;> split_ifs <;>
          first | rfl | (congr 1; linarith) | (exfalso; linarith)

lemma vmin_left_comm (u v w : V K) : vmin u (vmin v w) = vmin v (vmin u w) := by
  rw [← vmin_assoc, vmin_comm u v, vmin_assoc]

/-- Transposition symmetry of the recurrence. -/
lemma cell_transpose (d : α → α → K) (x y : List α) :
    ∀ i j : ℕ, cell (fun a b => d b a) y x j i = cell d x y i j := by
  intro i
  induction i with
  | zero =>
    intro j
    rcases j with _ | j'
    · rw [cell_zero_zero, cell_zero_zero]
    · rw [cell_succ_zero, cell_zero_succ]
  | succ i' ihi =>
    intro j
    induction j with
    | zero => rw [cell_zero_succ, cell_succ_zero]
    | succ j' ihj =>
      rw [cell_succ_succ, cell_succ_succ, ihi (j' + 1), ihi j', ihj,
        vmin_left_comm]

/-! ### Claims -/

/-- C1: for every pair of sequences and every distance function, the
table built by `dtw_table` has cell `(0,0) = 0`, `+inf` along the rest of
the first column and first row of the grid, and every interior grid cell
equal to `distance(X[i-1], Y[j-1])` plus the minimum of the cells above,
to the left, and diagonally above-left. -/
theorem claim1_table_recurrence (d : α → α → K) (x y : List α) :
    dtw_table d x y 0 0 = V.fin 0 ∧
    (∀ i, 1 ≤ i → i ≤ x.length → dtw_table d x y i 0 = V.inf) ∧
    (∀ j, 1 ≤ j → j ≤ y.length → dtw_table d x y 0 j = V.inf) ∧
    (∀ i j, 1 ≤ i → i ≤ x.length → 1 ≤ j → j ≤ y.length →
      dtw_table d x y i j =
        V.fin (d (x.getD (i - 1) default) (y.getD (j - 1) default)) +
          vmin (dtw_table d x y (i - 1) j)
            (vmin (dtw_table d x y i (j - 1)) (dtw_table d x y (i - 1) (j - 1)))) := by
  refine ⟨?_, ?_, ?_, ?_⟩
  · rw [dtw_table_eq_cell d x y 0 0 (by omega) (by omega), cell_zero_zero]
  · intro i h1 h2
    rcases i with _ | i'
    · omega
    · rw [dtw_table_eq_cell d x y _ 0 h2 (by omega), cell_succ_zero]
  · intro j h1 h2
    rcases j with _ | j'
    · omega
    · rw [dtw_table_eq_cell d x y 0 _ (by omega) h2, cell_zero_succ]
  · intro i j hi1 hi2 hj1 hj2
    rcases i with _ | i'
    · omega
    rcases j with _ | j'
    · omega
    simp only [Nat.add_sub_cancel]
    rw [dtw_table_eq_cell d x y _ _ hi2 hj2,
      dtw_table_eq_cell d x y _ _ (by omega) hj2,
      dtw_table_eq_cell d x y _ _ hi2 (by omega),
      dtw_table_eq_cell d x y _ _ (by omega) (by omega),
      cell_succ_succ]

/-- Witness for C1: the recurrence equation instantiated at the table for
X = [5], Y = [7] and its only interior cell (1, 1). -/
theorem claim1_witness :
    dtw_table euclid [(5 : ℤ)] [(7 : ℤ)] 1 1 =
      V.fin (euclid ([(5 : ℤ)].getD 0 default) ([(7 : ℤ)].getD 0 default)) +
        vmin (dtw_table euclid [(5 : ℤ)] [(7 : ℤ)] 0 1)
          (vmin (dtw_table euclid [(5 : ℤ)] [(7 : ℤ)] 1 0)
            (dtw_table euclid [(5 : ℤ)] [(7 : ℤ)] 0 0)) :=
  (claim1_table_recurrence euclid [(5 : ℤ)] [(7 : ℤ)]).2.2.2 1 1
    (by decide) (by decide) (by decide) (by decide)

set_option maxRecDepth 10000 in
set_option maxHeartbeats 4000000 in
/-- C2: Scenario 1 — for X = [0,4,4,0,-4,-4,0] and Y = [1,3,4,3,1,-1,-2,-1,0]
with scalar Euclidean distance, the final cost cell is 10 and the
reconstructed path is exactly the stated list. -/
theorem claim2_scenario1 :
    dtw_table euclid [(0 : ℤ), 4, 4, 0, -4, -4, 0] [(1 : ℤ), 3, 4, 3, 1, -1, -2, -1, 0] 7 9 =
      V.fin 10 ∧
    dtw [(0 : ℤ), 4, 4, 0, -4, -4, 0] [(1 : ℤ), 3, 4, 3, 1, -1, -2, -1, 0]
        (dtw_table euclid [(0 : ℤ), 4, 4, 0, -4, -4, 0] [(1 : ℤ), 3, 4, 3, 1, -1, -2, -1, 0]) =
      some [(0, 0), (1, 1), (2, 2), (2, 3), (3, 3), (3, 4), (4, 5), (4, 6),
        (5, 7), (6, 7), (7, 8), (7, 9)] := by
  constructor
  · decide
  · decide

/-- C3: for non-empty inputs, summing `distance(X[i-1], Y[j-1])` over the
path elements with both coordinates positive gives exactly the final cost
cell `table[Nx][Ny]`. -/
theorem claim3_cost_consistency (d : α → α → K) (x y : List α)
    (hx : x ≠ []) (hy : y ≠ []) :
    ∃ P, dtw x y (dtw_table d x y) = some P ∧
      V.fin (pathCost d x y P) = dtw_table d x y x.length y.length := by
  obtain ⟨P, h1, _, _, _, _, _, h7, _, _⟩ := dtw_master d x y hx hy
  exact ⟨P, h1, h7⟩

/-- Witness for C3 at X = Y = [5]. -/
theorem claim3_witness :
    ∃ P, dtw [(5 : ℤ)] [(5 : ℤ)] (dtw_table euclid [(5 : ℤ)] [(5 : ℤ)]) = some P ∧
      V.fin (pathCost euclid [(5 : ℤ)] [(5 : ℤ)] P) =
        dtw_table euclid [(5 : ℤ)] [(5 : ℤ)] 1 1 :=
  claim3_cost_consistency euclid [(5 : ℤ)] [(5 : ℤ)] (by decide) (by decide)

/-- C4: for non-empty inputs the reconstructed path starts at `(0,0)`,
ends at `(Nx,Ny)`, every consecutive pair differs by one of the moves
`(+1,0)`, `(0,+1)`, `(+1,+1)`, and in particular the path is monotonically
non-decreasing in both coordinates. -/
theorem claim4_path_valid (d : α → α → K) (x y : List α)
    (hx : x ≠ []) (hy : y ≠ []) :
    ∃ P, dtw x y (dtw_table d x y) = some P ∧
      P.head? = some ((0 : ℤ), (0 : ℤ)) ∧
      P.getLast? = some ((x.length : ℤ), (y.length : ℤ)) ∧
      List.Chain' validStep P ∧
      List.Pairwise (fun p q : ℤ × ℤ => p.1 ≤ q.1 ∧ p.2 ≤ q.2) P := by
  obtain ⟨P, h1, h2, h3, _, _, h6, _, _, _⟩ := dtw_master d x y hx hy
  refine ⟨P, h1, h2, h3, h6, ?_⟩
  have himp : ∀ p q : ℤ × ℤ, validStep p q → p.1 ≤ q.1 ∧ p.2 ≤ q.2 := by
    intro p q h
    rcases h with h | h | h <;> subst h <;> constructor <;> simp <;> omega
  haveI : IsTrans (ℤ × ℤ) (fun p q : ℤ × ℤ => p.1 ≤ q.1 ∧ p.2 ≤ q.2) :=
    ⟨fun a b c hab hbc => ⟨le_trans hab.1 hbc.1, le_trans hab.2 hbc.2⟩⟩
  exact List.chain'_iff_pairwise.mp (h6.imp himp)

/-- Witness for C4 at X = Y = [5]. -/
theorem claim4_witness :
    ∃ P, dtw [(5 : ℤ)] [(5 : ℤ)] (dtw_table euclid [(5 : ℤ)] [(5 : ℤ)]) = some P ∧
      P.head? = some ((0 : ℤ), (0 : ℤ)) ∧
      P.getLast? = some ((1 : ℤ), (1 : ℤ)) ∧
      List.Chain' validStep P ∧
      List.Pairwise (fun p q : ℤ × ℤ => p.1 ≤ q.1 ∧ p.2 ≤ q.2) P :=
  claim4_path_valid euclid [(5 : ℤ)] [(5 : ℤ)] (by decide) (by decide)

/-- Spec-side selector (§4.3): examine the candidates in the fixed order
`[(i-1,j), (i,j-1), (i-1,j-1)]` and return the first whose value attains
the minimum of the three values; no candidate is returned when all three
are infinite. -/
def firstMinStep (c1 c2 c3 : V K) (p1 p2 p3 : ℤ × ℤ) : Option (ℤ × ℤ) :=
  if vmin c1 (vmin c2 c3) = V.inf then none
  else if c1 = vmin c1 (vmin c2 c3) then some p1
  else if c2 = vmin c1 (vmin c2 c3) then some p2
  else some p3

/-- C5: the scan of `dtw` examines the three predecessors in the fixed
order `[(i-1,j), (i,j-1), (i-1,j-1)]` and keeps the first value strictly
below the running minimum, so on a tie the earliest-checked direction
wins: the assigned `step` is exactly the first candidate attaining the
minimum of the three table values. -/
theorem claim5_tie_break (t : ℕ → ℕ → V K) (nx ny : ℕ) (i j : ℤ) :
    (dtw_step t nx ny i j).2 =
      firstMinStep (tblGet t nx ny (i - 1) j) (tblGet t nx ny i (j - 1))
        (tblGet t nx ny (i - 1) (j - 1)) (i - 1, j) (i, j - 1) (i - 1, j - 1) := by
  simp only [dtw_step, firstMinStep]
  generalize tblGet t nx ny (i - 1) j = c1
  generalize tblGet t nx ny i (j - 1) = c2
  generalize tblGet t nx ny (i - 1) (j - 1) = c3
  rcases c1 with q1 | _ <;> rcases c2 with q2 | _ <;> rcases c3 with q3 | _
  · -- all three candidates finite
    rcases lt_or_le q2 q1 with h21 | h21 <;> rcases le_or_lt q2 q3 with h23 | h23 <;>
      rcases le_or_lt q1 q3 with h13 | h13
    · simp [vmin_fin, fin_lt_fin, fin_lt_inf_iff, inf_lt_iff_false, V.fin.injEq,
        h21, h23, not_lt.mpr h23, not_le.mpr h21, h21.ne']
    · simp [vmin_fin, fin_lt_fin, fin_lt_inf_iff, inf_lt_iff_false, V.fin.injEq,
        h21, h23, not_lt.mpr h23, not_le.mpr h21, h21.ne']
    · exfalso; linarith
    · simp [vmin_fin, fin_lt_fin, fin_lt_inf_iff, inf_lt_iff_false, V.fin.injEq,
        h21, h23, not_le.mpr h23, not_le.mpr h13, h13.ne', h23.ne']
    · simp [vmin_fin, fin_lt_fin, fin_lt_inf_iff, inf_lt_iff_false, V.fin.injEq,
        not_lt.mpr h21, h21, h23, not_lt.mpr h13, h13]
    · exfalso; linarith
    · simp [vmin_fin, fin_lt_fin, fin_lt_inf_iff, inf_lt_iff_false, V.fin.injEq,
        not_lt.mpr h21, h21, not_le.mpr h23, h13, not_lt.mpr h13]
    · simp [vmin_fin, fin_lt_fin, fin_lt_inf_iff, inf_lt_iff_false, V.fin.injEq,
        not_lt.mpr h21, h13, not_le.mpr h23, not_le.mpr h13, h13.ne', h23.ne']
  · -- candidates (finite, finite, inf)
    rcases lt_or_le q2 q1 with h | h
    · simp [vmin_fin, fin_lt_fin, fin_lt_inf_iff, inf_lt_iff_false, V.fin.injEq,
        vmin_inf_right, h, not_le.mpr h, h.ne']
    · simp [vmin_fin, fin_lt_fin, fin_lt_inf_iff, inf_lt_iff_false, V.fin.injEq,
        vmin_inf_right, not_lt.mpr h, h]
  · -- candidates (finite, inf, finite)
    rcases lt_or_le q3 q1 with h | h
    · simp [vmin_fin, fin_lt_fin, fin_lt_inf_iff, inf_lt_iff_false, V.fin.injEq,
        vmin_inf_left, h, not_le.mpr h, h.ne']
    · simp [vmin_fin, fin_lt_fin, fin_lt_inf_iff, inf_lt_iff_false, V.fin.injEq,
        vmin_inf_left, not_lt.mpr h, h]
  · -- candidates (finite, inf, inf)
    simp [vmin_fin, fin_lt_inf_iff, inf_lt_iff_false, V.fin.injEq,
      vmin_inf_left, vmin_inf_right]
  · -- candidates (inf, finite, finite)
    rcases lt_or_le q3 q2 with h | h
    · simp [vmin_fin, fin_lt_fin, fin_lt_inf_iff, inf_lt_iff_false, V.fin.injEq,
        vmin_inf_left, h, not_le.mpr h, h.ne']
    · simp [vmin_fin, fin_lt_fin, fin_lt_inf_iff, inf_lt_iff_false, V.fin.injEq,
        vmin_inf_left, not_lt.mpr h, h]
  · -- candidates (inf, finite, inf)
    simp [vmin_fin, fin_lt_inf_iff, inf_lt_iff_false, V.fin.injEq,
      vmin_inf_left, vmin_inf_right]
  · -- candidates (inf, inf, finite)
    simp [vmin_fin, fin_lt_inf_iff, inf_lt_iff_false, V.fin.injEq, vmin_inf_left]
  · -- all three candidates infinite
    simp [vmin_inf_left, inf_lt_iff_false]

/-- C6: Scenario 2 — with X = [] and Y = [1,2,3], building the table
succeeds and every grid cell except (0,0) is infinite, and the alignment
computation fails (the scan never assigns `step`, modelled as `none`)
instead of silently picking a predecessor. -/
theorem claim6_scenario2 :
    dtw_table euclid ([] : List ℤ) [1, 2, 3] 0 0 = V.fin 0 ∧
    dtw_table euclid ([] : List ℤ) [1, 2, 3] 0 1 = V.inf ∧
    dtw_table euclid ([] : List ℤ) [1, 2, 3] 0 2 = V.inf ∧
    dtw_table euclid ([] : List ℤ) [1, 2, 3] 0 3 = V.inf ∧
    dtw ([] : List ℤ) [1, 2, 3] (dtw_table euclid ([] : List ℤ) [1, 2, 3]) = none := by
  decide

/-- C7 counterexample: already at the interior cell (1,1) of the table
for X = Y = [5], the claimed bound against the MAXIMUM of the three
predecessors fails, because two of them are infinite boundary sentinels
while the cell itself is finite. -/
theorem claim7_counterexample :
    ¬ vmax (dtw_table euclid [(5 : ℤ)] [(5 : ℤ)] 0 1)
        (vmax (dtw_table euclid [(5 : ℤ)] [(5 : ℤ)] 1 0)
          (dtw_table euclid [(5 : ℤ)] [(5 : ℤ)] 0 0)) ≤
      dtw_table euclid [(5 : ℤ)] [(5 : ℤ)] 1 1 := by
  decide

/-- C7 (amended): for a non-negative distance function, every interior
grid cell is finite and at least the MINIMUM of its three predecessor
cells. -/
theorem claim7_monotonicity (d : α → α → K) (x y : List α)
    (hd : ∀ a b, 0 ≤ d a b) (i j : ℕ)
    (hi1 : 1 ≤ i) (hi2 : i ≤ x.length) (hj1 : 1 ≤ j) (hj2 : j ≤ y.length) :
    dtw_table d x y i j < V.inf ∧
    vmin (dtw_table d x y (i - 1) j)
        (vmin (dtw_table d x y i (j - 1)) (dtw_table d x y (i - 1) (j - 1))) ≤
      dtw_table d x y i j := by
  rcases i with _ | i'
  · omega
  rcases j with _ | j'
  · omega
  simp only [Nat.add_sub_cancel]
  rw [dtw_table_eq_cell d x y _ _ hi2 hj2,
    dtw_table_eq_cell d x y _ _ (by omega) hj2,
    dtw_table_eq_cell d x y _ _ hi2 (by omega),
    dtw_table_eq_cell d x y _ _ (by omega) (by omega)]
  refine ⟨cell_lt_inf d x y i' j', ?_⟩
  rw [cell_succ_succ]
  exact le_fin_add _ (hd _ _) _

/-- Witness for C7 at X = Y = [5], cell (1,1). -/
theorem claim7_witness :
    dtw_table euclid [(5 : ℤ)] [(5 : ℤ)] 1 1 < V.inf ∧
    vmin (dtw_table euclid [(5 : ℤ)] [(5 : ℤ)] 0 1)
        (vmin (dtw_table euclid [(5 : ℤ)] [(5 : ℤ)] 1 0)
          (dtw_table euclid [(5 : ℤ)] [(5 : ℤ)] 0 0)) ≤
      dtw_table euclid [(5 : ℤ)] [(5 : ℤ)] 1 1 :=
  claim7_monotonicity euclid [(5 : ℤ)] [(5 : ℤ)] (fun a b => euclid_nonneg a b) 1 1
    (by decide) (by decide) (by decide) (by decide)

/-- C8 (amended): building the table on the swapped inputs with the
distance arguments swapped yields the transpose of the original table.
(The path half of the original claim is refuted by
`claim8_counterexample`.) -/
theorem claim8_table_transpose (d : α → α → K) (x y : List α) (i j : ℕ)
    (hi : i ≤ x.length) (hj : j ≤ y.length) :
    dtw_table (fun a b => d b a) y x j i = dtw_table d x y i j := by
  rw [dtw_table_eq_cell _ y x j i hj hi, dtw_table_eq_cell d x y i j hi hj]
  exact cell_transpose d x y i j

/-- Witness for C8 at X = [5], Y = [7], cell (1,1). -/
theorem claim8_witness :
    dtw_table (fun a b => euclid b a) [(7 : ℤ)] [(5 : ℤ)] 1 1 =
      dtw_table euclid [(5 : ℤ)] [(7 : ℤ)] 1 1 :=
  claim8_table_transpose euclid [(5 : ℤ)] [(7 : ℤ)] 1 1 (by decide) (by decide)

/-- C8 counterexample: with X = Y = [0,0] (all distances 0, so every
predecessor ties), the coordinate-swapped path of the original run is NOT
the path of the run on swapped inputs — the tie-break asymmetry breaks
path transposition. -/
theorem claim8_counterexample :
    ¬ ((dtw [(0 : ℤ), 0] [(0 : ℤ), 0] (dtw_table euclid [(0 : ℤ), 0] [(0 : ℤ), 0])).map
        (List.map (fun p : ℤ × ℤ => (p.2, p.1))) =
      dtw [(0 : ℤ), 0] [(0 : ℤ), 0]
        (dtw_table (fun a b => euclid b a) [(0 : ℤ), 0] [(0 : ℤ), 0])) := by
  decide

/-- C9: for non-empty inputs the backtracking loop terminates with a
path, of length at least `max Nx Ny + 1` and at most `Nx + Ny + 1` (each
iteration strictly decreases `i + j` by 1 or 2). -/
theorem claim9_terminates (d : α → α → K) (x y : List α)
    (hx : x ≠ []) (hy : y ≠ []) :
    ∃ P, dtw x y (dtw_table d x y) = some P ∧
      max x.length y.length + 1 ≤ P.length ∧ P.length ≤ x.length + y.length + 1 := by
  obtain ⟨P, h1, _, _, _, _, _, _, h8, h9⟩ := dtw_master d x y hx hy
  exact ⟨P, h1, h8, h9⟩

/-- Witness for C9 at X = Y = [5]. -/
theorem claim9_witness :
    ∃ P, dtw [(5 : ℤ)] [(5 : ℤ)] (dtw_table euclid [(5 : ℤ)] [(5 : ℤ)]) = some P ∧
      max 1 1 + 1 ≤ P.length ∧ P.length ≤ 1 + 1 + 1 :=
  claim9_terminates euclid [(5 : ℤ)] [(5 : ℤ)] (by decide) (by decide)

/-- C10: for non-empty inputs the backtracker never selects a boundary
sentinel other than (0,0): every path element after the first has both
coordinates at least 1, and the second path element is always (1,1). -/
theorem claim10_no_sentinel (d : α → α → K) (x y : List α)
    (hx : x ≠ []) (hy : y ≠ []) :
    ∃ P, dtw x y (dtw_table d x y) = some P ∧
      P.head? = some ((0 : ℤ), (0 : ℤ)) ∧
      (∀ p ∈ P.tail, 1 ≤ p.1 ∧ 1 ≤ p.2) ∧
      P.tail.head? = some ((1 : ℤ), (1 : ℤ)) := by
  obtain ⟨P, h1, h2, _, h4, h5, _, _, _, _⟩ := dtw_master d x y hx hy
  exact ⟨P, h1, h2, fun p hp => ⟨(h5 p hp).1, (h5 p hp).2.2.1⟩, h4⟩

/-- Witness for C10 at X = Y = [5]. -/
theorem claim10_witness :
    ∃ P, dtw [(5 : ℤ)] [(5 : ℤ)] (dtw_table euclid [(5 : ℤ)] [(5 : ℤ)]) = some P ∧
      P.head? = some ((0 : ℤ), (0 : ℤ)) ∧
      (∀ p ∈ P.tail, 1 ≤ p.1 ∧ 1 ≤ p.2) ∧
      P.tail.head? = some ((1 : ℤ), (1 : ℤ)) :=
  claim10_no_sentinel euclid [(5 : ℤ)] [(5 : ℤ)] (by decide) (by decide)

end DTW
